import Mathlib

/-!
Shallow embedding of `src/planqtn/symplectic.py` (the symplectic linear-algebra
substrate of the planqtn repository) together with proofs about it.

Conventions of the embedding:
* `galois.GF2` scalar values are `ZMod 2`.
* A symplectic vector (a 1-d `GF2` numpy array) is a `List (ZMod 2)`.
* A matrix (a 2-d array) is a `List` of rows.
* Fallible code (`raise ValueError`) is `Except String`.
* The bit-packed rows used by `rank_gf2` (`np.packbits(..., bitorder="little")`,
  a byte array per row) are modelled as one `Nat` per row whose bit `8*word + bit`
  is the byte-array entry `(word, bit)`; the source's test
  `packed[i, word] & (1 <<< bit)` is `Nat.testBit` at `col = 8*word + bit`, and the
  source's full-row `^=` is `Nat` xor (bytewise xor of the little-endian byte
  string equals xor of the represented number).
-/

namespace Planqtn

/-- GF(2) scalars, the entry type of the source's `galois.GF2` arrays. -/
abbrev GF2 := ZMod 2

/-- Embedding of `weight(op, skip_indices)`:
`n = len(op) // 2`; `x_inds = [i for i in range(n) if i not in skip_indices]`;
`z_inds = x_inds + n`; returns 0 if both index arrays are empty, else
`np.count_nonzero(op[x_inds] | op[z_inds])`. -/
def weight (op : List GF2) (skip_indices : List Nat) : Nat :=
  let n := op.length / 2
  let x_inds := (List.range n).filter (fun i => decide (i ∉ skip_indices))
  let z_inds := x_inds.map (· + n)
  if x_inds.length = 0 ∧ z_inds.length = 0 then 0
  else
    (x_inds.zip z_inds).countP
      (fun p => decide (op.getD p.1 0 ≠ 0) || decide (op.getD p.2 0 ≠ 0))

/-- Embedding of `symp_to_str(vec, swapxz)`: character `i` is
`p[2*int(vec[i+n]) + int(vec[i])]` with `p = "IXZY"` (or `"IZXY"` when swapped). -/
def symp_to_str (vec : List GF2) (swapxz : Bool) : String :=
  let p := if swapxz then ['I', 'Z', 'X', 'Y'] else ['I', 'X', 'Z', 'Y']
  let n := vec.length / 2
  String.mk ((List.range n).map
    (fun i => p.getD (2 * (vec.getD (i + n) 0).val + (vec.getD i 0).val) 'I'))

/-- Embedding of `omega(n)`: the block matrix `[[0, I_n], [I_n, 0]]` over GF(2),
built with `np.block` from `GF2.Zeros((n,n))` and `GF2.Identity(n)`. -/
def omega (n : Nat) : Matrix (Fin n ⊕ Fin n) (Fin n ⊕ Fin n) GF2 :=
  Matrix.fromBlocks 0 1 1 0

/-- Embedding of `sympl_to_pauli_repr(op)`: entry `i` is `2*int(op[i+n]) + int(op[i])`. -/
def sympl_to_pauli_repr (op : List GF2) : List Nat :=
  let n := op.length / 2
  (List.range n).map (fun i => 2 * (op.getD (i + n) 0).val + (op.getD i 0).val)

/-- The runtime type of the `indices` argument of `sslice`: a Python
`list`/`np.ndarray` of qubit indices, a `slice` with optional bounds, or any
other value (carried as its printed form, used in the `ValueError` message). -/
inductive SliceIndices where
  | list (l : List Nat)
  | slice (start stop : Option Nat)
  | invalid (shown : String)

/-- Embedding of `sslice(op, indices)`: for a list, `op[indices] ++ op[indices+n]`
(empty list short-circuits to an empty vector); for a slice, bounds default to
`start=0`, `stop=n` and the result is `op[x] ++ op[x+n]`; any other argument
raises `ValueError(f"Invalid indices: {indices}")`. -/
def sslice (op : List GF2) (indices : SliceIndices) : Except String (List GF2) :=
  let n := op.length / 2
  match indices with
  | .list l =>
      if l.length = 0 then .ok []
      else .ok ((l.map (fun i => op.getD i 0)) ++ (l.map (fun i => op.getD (i + n) 0)))
  | .slice start stop =>
      let x0 := start.getD 0
      let x1 := stop.getD n
      .ok (((op.take x1).drop x0) ++ ((op.take (x1 + n)).drop (x0 + n)))
  | .invalid shown => .error ("Invalid indices: " ++ shown)

/-- Embedding of `replace_with_op_on_indices(indices, op, target)`:
`m = len(indices)`; `n = len(op) // 2`; copies `target`, assigns
`res[indices] = op[:m]` and `res[indices + n] = op[m:]` (numpy fancy
assignment: element-by-element, later duplicate writes win). -/
def replace_with_op_on_indices (indices : List Nat) (op target : List GF2) : List GF2 :=
  let m := indices.length
  let n := op.length / 2
  let res := (indices.zip (op.take m)).foldl (fun acc p => acc.set p.1 p.2) target
  (indices.zip (op.drop m)).foldl (fun acc p => acc.set (p.1 + n) p.2) res

/-- Embedding of numpy's `.astype(np.int8)` on a scalar: wrap into `[-128, 128)`. -/
def toInt8 (x : Int) : Int := (x + 128) % 256 - 128

/-- Embedding of `sconcat(*ops)` (entries are Python ints): `ns = [len//2 ...]`,
X-parts concatenated then `.astype(np.int8)`, same for Z-parts, then
`np.hstack` of the two and a final `.astype(np.int8)`. -/
def sconcat (ops : List (List Int)) : List Int :=
  let xs := ((ops.map (fun op => op.take (op.length / 2))).flatten).map toInt8
  let zs := ((ops.map (fun op => op.drop (op.length / 2))).flatten).map toInt8
  (xs ++ zs).map toInt8

/-- The bit-to-character map of `sstr`: `"_1"[int(b)]`. -/
def bit_char (b : GF2) : Char := ['_', '1'].getD b.val '_'

/-- Embedding of `sstr(h)`: `n = h.shape[1] // 2`; rows joined by newlines, each
row rendered as its first `n` bits, `'|'`, then its remaining bits. -/
def sstr (h : List (List GF2)) : String :=
  let n := (h.headD []).length / 2
  String.intercalate "\n"
    (h.map (fun row =>
      String.mk ((row.take n).map bit_char) ++ "|" ++ String.mk ((row.drop n).map bit_char)))

/-- Elements of a list at even positions: `row[0::2]`. -/
def everyOther {α : Type} : List α → List α
  | [] => []
  | [a] => [a]
  | a :: _ :: rest => a :: everyOther rest

/-- Embedding of `to_symplectic(matrix)`: per row, the even-position entries
(`matrix[:, 0::2]`, the X bits) followed by the odd-position entries
(`matrix[:, 1::2]`, the Z bits). -/
def to_symplectic {α : Type} (matrix : List (List α)) : List (List α) :=
  matrix.map (fun row => everyOther row ++ everyOther (row.drop 1))

/-! The packed-bit GF(2) rank engine (`rank_gf2`). -/

/-- Packing `np.packbits(row, bitorder="little")`: the packed row as a single natural
number whose bit `j` is the 0/1 entry at column `j`. -/
def packRow (row : List GF2) : Nat :=
  row.foldr (fun b acc => b.val + 2 * acc) 0

/-- Pivot search for column `c`:
`np.where(packed[rank:, word] & mask)[0]` (+ `rank`): the first row index `≥ r`
whose packed row has bit `c` set. -/
def findPivotP (packed : List Nat) (r c : Nat) : Option Nat :=
  ((packed.drop r).findIdx? (fun w => w.testBit c)).map (· + r)

/-- Row swap `packed[[a, b]] = packed[[b, a]]`. -/
def swapRowsP (packed : List Nat) (a b : Nat) : List Nat :=
  match packed[a]?, packed[b]? with
  | some x, some y => (packed.set a y).set b x
  | _, _ => packed

/-- The elimination loop `for i in range(rank+1, m): if packed[i,word] & mask:
packed[i,:] ^= packed[rank,:]`. -/
def eliminateP (packed : List Nat) (r c : Nat) : List Nat :=
  match packed[r]? with
  | some pr =>
      packed.take (r + 1) ++
        (packed.drop (r + 1)).map (fun w => if w.testBit c then w ^^^ pr else w)
  | none => packed

/-- The column loop of `rank_gf2`: for each column, find a pivot (else continue),
swap it into place when needed, eliminate below, increment the rank, and stop
early once `rank == m`. -/
def gaussLoopP (m : Nat) : List Nat → Nat → List Nat → List Nat × Nat
  | packed, r, [] => (packed, r)
  | packed, r, c :: cs =>
      match findPivotP packed r c with
      | none => gaussLoopP m packed r cs
      | some p =>
          let packed1 := if p = r then packed else swapRowsP packed r p
          let packed2 := eliminateP packed1 r c
          if r + 1 = m then (packed2, r + 1) else gaussLoopP m packed2 (r + 1) cs

/-- Embedding of `rank_gf2(matrix)`: `m, n = matrix.shape`; pack the rows;
run the column loop over columns `0..n-1` starting from rank 0. -/
def rank_gf2 (matrix : List (List GF2)) : Nat :=
  let m := matrix.length
  let n := (matrix.headD []).length
  (gaussLoopP m (matrix.map packRow) 0 (List.range n)).2

/-! The stabilizer matching-ratio orchestration. -/

/-- Modelled from the spec: the missing external `StabilizerCodeTensorEnumerator`
(`src/planqtn/stabilizer_tensor_enumerator.py` is not in the sample). Per the
spec it exposes a parity-check matrix `h` in interleaved column layout and a
leg-to-column-indices lookup (`get_col_indices({leg})`, here per single leg). -/
structure StabilizerCodeTensorEnumerator (Leg : Type) where
  h : List (List Nat)
  get_col_indices : Leg → List Nat

/-- Numpy column selection `h[:, idx]`. -/
def selectCols (h : List (List Nat)) (idx : List Nat) : List (List Nat) :=
  h.map (fun row => idx.map (fun j => row.getD j 0))

/-- The stacked intermediate of `count_matching_stabilizers_ratio_all_pairs`:
concatenate each component's join-leg column indices
(`np.concatenate([pte.get_col_indices({leg}) for leg in join_legs])`),
extract those columns of its parity-check matrix, convert each to symplectic
block layout, stack vertically (`np.vstack`), and reduce every entry mod 2
(`np.array(stacked, dtype=np.uint8) & 1`). -/
def stackedJoinMatrix {Leg : Type}
    (pte1 pte2 : StabilizerCodeTensorEnumerator Leg)
    (join_legs1 join_legs2 : List Leg) : List (List GF2) :=
  let idx1 := (join_legs1.map pte1.get_col_indices).flatten
  let idx2 := (join_legs2.map pte2.get_col_indices).flatten
  let jm1 := to_symplectic (selectCols pte1.h idx1)
  let jm2 := to_symplectic (selectCols pte2.h idx2)
  let stacked := jm1 ++ jm2
  stacked.map (fun row => row.map (fun x => ((x % 2 : Nat) : GF2)))

/-- Embedding of `count_matching_stabilizers_ratio_all_pairs`: build the
stacked, mod-2-reduced join-column matrix and return
`2.0 ** (-rank_gf2(stacked))` (as an exact rational). -/
def count_matching_stabilizers_ratio_all_pairs {Leg : Type}
    (pte1 pte2 : StabilizerCodeTensorEnumerator Leg)
    (join_legs1 join_legs2 : List Leg) : ℚ :=
  (2 : ℚ) ^ (-(rank_gf2 (stackedJoinMatrix pte1 pte2 join_legs1 join_legs2) : Int))

/-! Specification-side notions used to state the rank-engine claims. -/

/-- The GF(2) row vector represented by a packed row: bit `j` of the word is
entry `j` of the row. -/
def unpackRow (n : Nat) (w : Nat) : Fin n → GF2 :=
  fun j => if w.testBit j.val then 1 else 0

/-- The GF(2) row vector of a list row (out-of-range entries read as 0). -/
def listToVec (n : Nat) (row : List GF2) : Fin n → GF2 :=
  fun j => row.getD j.val 0

/-- The span of the set of rows of a matrix, a submodule of `Fin n → GF2`. -/
def rowSpan (n : Nat) (rows : List (Fin n → GF2)) : Submodule GF2 (Fin n → GF2) :=
  Submodule.span GF2 {x | x ∈ rows}

/-- The `Matrix` view of a list-of-rows matrix with `n` columns. -/
def toMat (n : Nat) (A : List (List GF2)) : Matrix (Fin A.length) (Fin n) GF2 :=
  Matrix.of (fun i j => (A.get i).getD j.val 0)

/-- The all-zero matrix with `m` rows and `n` columns. -/
def zeroMat (m n : Nat) : List (List GF2) :=
  List.replicate m (List.replicate n 0)

/-- The `n` by `n` identity matrix as a list of rows. -/
def identityMat (n : Nat) : List (List GF2) :=
  (List.range n).map (fun i => (List.range n).map (fun j => if i = j then 1 else 0))

/-- The loop invariant of the rank engine after the columns `< c` have been
processed: `r` pivot rows have been fixed, every row below them is zero on all
processed columns, each pivot row `i` has a pivot column where every later row
is zero, and the row space is that of the original matrix `A`. -/
structure GaussInv (n : Nat) (A : List (Fin n → GF2)) (c : Nat)
    (packed : List Nat) (r : Nat) : Prop where
  hr : r ≤ packed.length
  hspan : rowSpan n (packed.map (unpackRow n)) = rowSpan n A
  hbelow : ∀ i, r ≤ i → i < packed.length → ∀ j, j < c →
    (packed.getD i 0).testBit j = false
  hpiv : ∀ i, i < r → ∃ p, p < c ∧ (packed.getD i 0).testBit p = true ∧
    ∀ k, i < k → k < packed.length → (packed.getD k 0).testBit p = false

/-- Whether an `Except` result is an error (a raised exception). -/
def isError {ε α : Type} : Except ε α → Bool
  | .error _ => true
  | .ok _ => false

/-- A concrete 2-generator, 2-qubit stabilizer component used as a test input:
interleaved parity-check matrix with both legs resolving to columns 0 and 1. -/
def examplePte1 : StabilizerCodeTensorEnumerator Nat :=
  ⟨[[1, 0, 1, 1], [0, 1, 1, 0]], fun _ => [0, 1]⟩

/-- A concrete 1-generator stabilizer component used as a test input. -/
def examplePte2 : StabilizerCodeTensorEnumerator Nat :=
  ⟨[[1, 0]], fun _ => [0, 1]⟩

end Planqtn


namespace Planqtn

/-! Claim theorems: small claims first. -/

/-- C1 (evaluation at the failing input): slicing qubit 0 out of the vector
`v = [0,1,0,0]` (a 2-qubit vector with an X on qubit 1) gives `[0,0]`, and
`replace_with_op_on_indices([0], [0,0], v)` returns `[0,0,0,0]`, not `v`:
the function computes the Z-part offset from `len(op)//2 = 1` instead of the
target's qubit count 2, so the sliced Z-bit of qubit 0 overwrites position 1
(the X-bit of qubit 1) and the round trip fails. -/
theorem claim_C1_replace_bug_eval :
    sslice [0, 1, 0, 0] (.list [0]) = .ok [0, 0]
    ∧ replace_with_op_on_indices [0] [0, 0] [0, 1, 0, 0] = [0, 0, 0, 0]
    ∧ replace_with_op_on_indices [0] [0, 0] [0, 1, 0, 0] ≠ [0, 1, 0, 0] :=
  ⟨rfl, by decide, by decide⟩

/-- C5 (counterexample): `sstr` on the block-layout matrix
`[[1,0,1,0],[0,1,0,1]]` does not return the claimed lines `"1_|_1"` and
`"_1|1_"`: each row `[1,0,1,0]` has X-part `[1,0]` and Z-part `[1,0]`,
so its line is `"1_|1_"`. -/
theorem claim_C5_counterexample :
    sstr [[1, 0, 1, 0], [0, 1, 0, 1]] ≠ "1_|_1\n_1|1_" := by decide

/-- C5 (amended): `sstr` applied to the 2x4 block-layout matrix
`[[1,0,1,0],[0,1,0,1]]` (n=2) returns exactly the two newline-separated lines
`"1_|1_"` and `"_1|_1"`, using `'_'` for bit 0, `'1'` for bit 1, and `'|'`
between the X-part and the Z-part of each row. -/
theorem claim_C5_amended :
    sstr [[1, 0, 1, 0], [0, 1, 0, 1]] = "1_|1_\n_1|_1" := by decide

/-- C10: `omega n` is a symmetric involution for every `n`: the block matrix
`[[0, I_n], [I_n, 0]]` equals its own transpose, and its GF(2) matrix product
with itself is the identity. -/
theorem claim_C10_omega_symmetric_involution (n : Nat) :
    Matrix.transpose (omega n) = omega n ∧ omega n * omega n = 1 := by
  refine ⟨?_, ?_⟩
  · simp [omega, Matrix.fromBlocks_transpose]
  · simp [omega, Matrix.fromBlocks_multiply, Matrix.fromBlocks_one]

end Planqtn

namespace Planqtn

/-- A list zipped with a map of itself pairs each element with its image. -/
theorem zip_self_map {α β : Type} (l : List α) (f : α → β) :
    l.zip (l.map f) = l.map (fun a => (a, f a)) := by
  simpa using List.zip_map' id f l

/-- Rewriting `weight` as a single count over the filtered qubit range (the guard branch
for an empty index set returns the same value as the count). -/
theorem weight_eq_countP (v : List GF2) (S : List Nat) :
    weight v S =
      (((List.range (v.length / 2)).filter (fun i => decide (i ∉ S))).map
          (fun i => (i, i + v.length / 2))).countP
        (fun p => decide (v.getD p.1 0 ≠ 0) || decide (v.getD p.2 0 ≠ 0)) := by
  simp only [weight]
  rw [zip_self_map]
  split
  · rename_i h
    rw [List.length_eq_zero] at h
    rw [h.1]
    rfl
  · rfl

/-- C6: for a symplectic vector `v` of length `2n` and any skip set `S`,
`weight v S` equals the number of qubit indices `i` in `0..n-1` with `i ∉ S`
and `(v[i], v[n+i]) ≠ (0,0)`; and when `S` covers all of `0..n-1` the weight
is `0` (the guard for the empty effective index set returns, it does not
raise). -/
theorem claim_C6_weight (v : List GF2) (n : Nat) (S : List Nat)
    (hv : v.length = 2 * n) :
    weight v S =
      ((List.range n).filter
        (fun i => decide (i ∉ S) &&
          !(decide (v.getD i 0 = 0) && decide (v.getD (n + i) 0 = 0)))).length
    ∧ ((∀ i, i < n → i ∈ S) → weight v S = 0) := by
  have hn : v.length / 2 = n := by omega
  have key : weight v S =
      ((List.range n).filter
        (fun i => decide (i ∉ S) &&
          !(decide (v.getD i 0 = 0) && decide (v.getD (n + i) 0 = 0)))).length := by
    rw [weight_eq_countP, hn, List.countP_map, List.countP_eq_length_filter,
      List.filter_filter]
    apply congrArg
    apply List.filter_congr
    intro i _
    simp only [Function.comp_apply, Bool.not_and, decide_not, Nat.add_comm i n]
    rw [Bool.and_comm]
  refine ⟨key, fun hall => ?_⟩
  rw [key, List.length_eq_zero, List.filter_eq_nil_iff]
  intro i hi
  simp only [List.mem_range] at hi
  simp [hall i hi]

end Planqtn

namespace Planqtn

/-- C6 witness: the theorem applied to the 2-qubit vector `[1,0,0,1]` (X on
qubit 0, Z on qubit 1) with an empty skip set. -/
theorem claim_C6_weight_witness :
    ([1, 0, 0, 1] : List GF2).length = 2 * 2 ∧
      (weight [1, 0, 0, 1] [] =
        ((List.range 2).filter
          (fun i => decide (i ∉ ([] : List Nat)) &&
            !(decide (([1, 0, 0, 1] : List GF2).getD i 0 = 0) &&
              decide (([1, 0, 0, 1] : List GF2).getD (2 + i) 0 = 0)))).length
      ∧ ((∀ i, i < 2 → i ∈ ([] : List Nat)) → weight [1, 0, 0, 1] [] = 0)) :=
  ⟨by decide, claim_C6_weight [1, 0, 0, 1] 2 [] (by decide)⟩

/-- C7: for a symplectic vector of length `2n` and any qubit position `i < n`,
entry `i` of `sympl_to_pauli_repr v` is `2*v[n+i] + v[i]` (I=0, X=1, Z=2, Y=3),
and it equals the index of character `i` of `symp_to_str v false` in the
ordering `I, X, Z, Y`. -/
theorem claim_C7_pauli_consistency (v : List GF2) (n : Nat) (hv : v.length = 2 * n)
    (i : Nat) (hi : i < n) :
    (sympl_to_pauli_repr v).getD i 0 = 2 * (v.getD (n + i) 0).val + (v.getD i 0).val
    ∧ (sympl_to_pauli_repr v).getD i 0 =
        (['I', 'X', 'Z', 'Y'] : List Char).indexOf ((symp_to_str v false).data.getD i 'I') := by
  have hn : v.length / 2 = n := by omega
  have h1 : (sympl_to_pauli_repr v).getD i 0
      = 2 * (v.getD (i + n) 0).val + (v.getD i 0).val := by
    simp only [sympl_to_pauli_repr, hn, List.getD_eq_getElem?_getD, List.getElem?_map,
      List.getElem?_range hi, Option.map_some', Option.getD_some]
  have h2 : (symp_to_str v false).data.getD i 'I'
      = (['I', 'X', 'Z', 'Y'] : List Char).getD
          (2 * (v.getD (i + n) 0).val + (v.getD i 0).val) 'I' := by
    simp only [symp_to_str, hn, Bool.false_eq_true, if_false, String.data]
    simp only [List.getD_eq_getElem?_getD, List.getElem?_map,
      List.getElem?_range hi, Option.map_some', Option.getD_some]
  rw [Nat.add_comm n i]
  refine ⟨h1, ?_⟩
  rw [h1, h2]
  generalize v.getD (i + n) 0 = b
  generalize v.getD i 0 = a
  revert a b
  decide

/-- C7 witness: the theorem applied to `v = [1,1,0,1]` (Pauli `XY`, n = 2) at
qubit position 1. -/
theorem claim_C7_pauli_consistency_witness :
    ([1, 1, 0, 1] : List GF2).length = 2 * 2 ∧ 1 < 2 ∧
      ((sympl_to_pauli_repr [1, 1, 0, 1]).getD 1 0 =
          2 * (([1, 1, 0, 1] : List GF2).getD (2 + 1) 0).val +
            (([1, 1, 0, 1] : List GF2).getD 1 0).val
      ∧ (sympl_to_pauli_repr [1, 1, 0, 1]).getD 1 0 =
          (['I', 'X', 'Z', 'Y'] : List Char).indexOf
            ((symp_to_str [1, 1, 0, 1] false).data.getD 1 'I')) :=
  ⟨by decide, by decide,
    claim_C7_pauli_consistency [1, 1, 0, 1] 2 (by decide) 1 (by decide)⟩

/-- C9: `sslice` fails (with the invalid-argument `ValueError`) exactly when its
index argument is neither a list/array nor a slice; an empty index list yields
the empty vector; unset slice bounds default to `start = 0`, `stop = n`; and the
full default slice returns the whole vector. -/
theorem claim_C9_sslice_errors (op : List GF2) (n : Nat) (hop : op.length = 2 * n) :
    (∀ idx : SliceIndices, isError (sslice op idx) = true ↔ ∃ s, idx = .invalid s)
    ∧ sslice op (.list []) = .ok []
    ∧ sslice op (.slice none none) = sslice op (.slice (some 0) (some n))
    ∧ sslice op (.slice none none) = .ok op := by
  have hn : op.length / 2 = n := by omega
  have h2n : op.take (n + n) = op := List.take_of_length_le (by omega)
  have hdefault : sslice op (.slice none none) = .ok (op.take n ++ op.drop n) := by
    simp only [sslice, hn, Option.getD_none, Option.getD_some, Nat.zero_add,
      List.drop_zero]
    rw [h2n]
  refine ⟨?_, rfl, ?_, ?_⟩
  · intro idx
    cases idx with
    | list l =>
        simp only [sslice]
        split <;> simp [isError]
    | slice s t => simp [sslice, isError]
    | invalid s => simp [sslice, isError]
  · rw [hdefault]
    simp only [sslice, hn, Option.getD_some, Nat.zero_add, List.drop_zero]
    rw [h2n]
  · rw [hdefault, List.take_append_drop]

/-- C9 witness: the theorem applied to the 2-qubit vector `[1,0,1,1]`. -/
theorem claim_C9_sslice_errors_witness :
    ([1, 0, 1, 1] : List GF2).length = 2 * 2 ∧
      ((∀ idx : SliceIndices,
          isError (sslice [1, 0, 1, 1] idx) = true ↔ ∃ s, idx = .invalid s)
      ∧ sslice [1, 0, 1, 1] (.list []) = .ok []
      ∧ sslice [1, 0, 1, 1] (.slice none none) =
          sslice [1, 0, 1, 1] (.slice (some 0) (some 2))
      ∧ sslice [1, 0, 1, 1] (.slice none none) = .ok [1, 0, 1, 1]) :=
  ⟨by decide, claim_C9_sslice_errors [1, 0, 1, 1] 2 (by decide)⟩

end Planqtn

namespace Planqtn

/-- The cast `.astype(np.int8)` is the identity on 0/1 entries. -/
theorem toInt8_map_id : ∀ l : List Int, (∀ x ∈ l, x = 0 ∨ x = 1) → l.map toInt8 = l := by
  intro l h
  have h2 : ∀ x ∈ l, toInt8 x = id x := by
    intro x hx
    rcases h x hx with rfl | rfl <;> decide
  rw [List.map_congr_left h2, List.map_id]

/-- Applying `sconcat` to two 0/1 vectors gives the two X-parts then the two Z-parts. -/
theorem sconcat_pair (a b : List Int)
    (ha : ∀ x ∈ a, x = 0 ∨ x = 1) (hb : ∀ x ∈ b, x = 0 ∨ x = 1) :
    sconcat [a, b] =
      (a.take (a.length / 2) ++ b.take (b.length / 2)) ++
        (a.drop (a.length / 2) ++ b.drop (b.length / 2)) := by
  have hx : ∀ x ∈ a.take (a.length / 2) ++ b.take (b.length / 2), x = 0 ∨ x = 1 := by
    intro x hx
    rcases List.mem_append.mp hx with h | h
    · exact ha x (List.mem_of_mem_take h)
    · exact hb x (List.mem_of_mem_take h)
  have hz : ∀ x ∈ a.drop (a.length / 2) ++ b.drop (b.length / 2), x = 0 ∨ x = 1 := by
    intro x hx
    rcases List.mem_append.mp hx with h | h
    · exact ha x (List.mem_of_mem_drop h)
    · exact hb x (List.mem_of_mem_drop h)
  simp only [sconcat, List.map_cons, List.map_nil, List.flatten_cons, List.flatten_nil,
    List.append_nil]
  rw [toInt8_map_id _ hx, toInt8_map_id _ hz, toInt8_map_id _ ?_]
  intro x hmem
  rcases List.mem_append.mp hmem with h | h
  · exact hx x h
  · exact hz x h

/-- C8: `sconcat` is associative on 0/1 symplectic vectors of even lengths, and
both associations equal the vector made of the three X-parts in argument order
followed by the three Z-parts in the same order. -/
theorem claim_C8_sconcat_assoc (a b c : List Int)
    (ha2 : a.length % 2 = 0) (hb2 : b.length % 2 = 0) (hc2 : c.length % 2 = 0)
    (ha : ∀ x ∈ a, x = 0 ∨ x = 1) (hb : ∀ x ∈ b, x = 0 ∨ x = 1)
    (hc : ∀ x ∈ c, x = 0 ∨ x = 1) :
    sconcat [sconcat [a, b], c] = sconcat [a, sconcat [b, c]]
    ∧ sconcat [sconcat [a, b], c] =
        (a.take (a.length / 2) ++ b.take (b.length / 2) ++ c.take (c.length / 2)) ++
          (a.drop (a.length / 2) ++ b.drop (b.length / 2) ++ c.drop (c.length / 2)) := by
  have hmem : ∀ (u v : List Int), (∀ x ∈ u, x = 0 ∨ x = 1) → (∀ x ∈ v, x = 0 ∨ x = 1) →
      ∀ x ∈ sconcat [u, v], x = 0 ∨ x = 1 := by
    intro u v hu hv x hx
    rw [sconcat_pair u v hu hv] at hx
    rcases List.mem_append.mp hx with h | h <;> rcases List.mem_append.mp h with h2 | h2
    · exact hu x (List.mem_of_mem_take h2)
    · exact hv x (List.mem_of_mem_take h2)
    · exact hu x (List.mem_of_mem_drop h2)
    · exact hv x (List.mem_of_mem_drop h2)
  have hlen : ∀ (u v : List Int), (∀ x ∈ u, x = 0 ∨ x = 1) → (∀ x ∈ v, x = 0 ∨ x = 1) →
      u.length % 2 = 0 → v.length % 2 = 0 →
      (sconcat [u, v]).length = u.length + v.length := by
    intro u v hu hv hu2 hv2
    rw [sconcat_pair u v hu hv]
    simp only [List.length_append, List.length_take, List.length_drop]
    omega
  -- the left association
  have hab := sconcat_pair a b ha hb
  have hab01 := hmem a b ha hb
  have habX : (sconcat [a, b]).take ((sconcat [a, b]).length / 2) =
      a.take (a.length / 2) ++ b.take (b.length / 2) := by
    rw [hab]
    apply List.take_left'
    simp only [List.length_append, List.length_take, List.length_drop]
    omega
  have habZ : (sconcat [a, b]).drop ((sconcat [a, b]).length / 2) =
      a.drop (a.length / 2) ++ b.drop (b.length / 2) := by
    rw [hab]
    apply List.drop_left'
    simp only [List.length_append, List.length_take, List.length_drop]
    omega
  have hleft := sconcat_pair (sconcat [a, b]) c hab01 hc
  rw [habX, habZ] at hleft
  -- the right association
  have hbc := sconcat_pair b c hb hc
  have hbc01 := hmem b c hb hc
  have hbcX : (sconcat [b, c]).take ((sconcat [b, c]).length / 2) =
      b.take (b.length / 2) ++ c.take (c.length / 2) := by
    rw [hbc]
    apply List.take_left'
    simp only [List.length_append, List.length_take, List.length_drop]
    omega
  have hbcZ : (sconcat [b, c]).drop ((sconcat [b, c]).length / 2) =
      b.drop (b.length / 2) ++ c.drop (c.length / 2) := by
    rw [hbc]
    apply List.drop_left'
    simp only [List.length_append, List.length_take, List.length_drop]
    omega
  have hright := sconcat_pair a (sconcat [b, c]) ha hbc01
  rw [hbcX, hbcZ] at hright
  rw [hleft, hright]
  constructor
  · simp [List.append_assoc]
  · simp [List.append_assoc]

/-- C8 witness: the theorem applied to the single-qubit vectors `[1,0]` (X),
`[0,1]` (Z) and `[1,1]` (Y). -/
theorem claim_C8_sconcat_assoc_witness :
    ([1, 0] : List Int).length % 2 = 0 ∧ ([0, 1] : List Int).length % 2 = 0 ∧
    ([1, 1] : List Int).length % 2 = 0 ∧
      (sconcat [sconcat [[1, 0], [0, 1]], [1, 1]] =
          sconcat [[1, 0], sconcat [[0, 1], [1, 1]]]
      ∧ sconcat [sconcat [[1, 0], [0, 1]], [1, 1]] =
          (([1, 0] : List Int).take (([1, 0] : List Int).length / 2) ++
              ([0, 1] : List Int).take (([0, 1] : List Int).length / 2) ++
              ([1, 1] : List Int).take (([1, 1] : List Int).length / 2)) ++
            (([1, 0] : List Int).drop (([1, 0] : List Int).length / 2) ++
              ([0, 1] : List Int).drop (([0, 1] : List Int).length / 2) ++
              ([1, 1] : List Int).drop (([1, 1] : List Int).length / 2))) :=
  ⟨by decide, by decide, by decide,
    claim_C8_sconcat_assoc [1, 0] [0, 1] [1, 1] (by decide) (by decide) (by decide)
      (by decide) (by decide) (by decide)⟩

end Planqtn

namespace Planqtn

/-! Bit-level bridge between packed rows and their GF(2) row vectors. -/

/-- A GF(2) scalar is 0 or 1. -/
theorem gf2_cases (b : GF2) : b = 0 ∨ b = 1 := by revert b; decide

/-- GF(2) scalars are self-inverse for addition. -/
theorem gf2_add_self (x : GF2) : x + x = 0 := by revert x; decide

/-- Bit `j` of a packed row is its `j`-th 0/1 entry. -/
theorem packRow_testBit (row : List GF2) :
    ∀ j, (packRow row).testBit j = decide (row.getD j 0 = 1) := by
  induction row with
  | nil =>
      intro j
      simp only [packRow, List.foldr_nil, Nat.zero_testBit, List.getD_nil]
      simp
  | cons b row ih =>
      intro j
      cases j with
      | zero =>
          simp only [packRow, List.foldr_cons, Nat.testBit_zero, List.getD_cons_zero]
          rcases gf2_cases b with rfl | rfl
          · simp [Nat.add_mul_mod_self_left]
          · simp [Nat.add_mul_mod_self_left]
            decide
      | succ j =>
          simp only [packRow, List.foldr_cons, Nat.testBit_add_one, List.getD_cons_succ]
          have hdiv : (b.val + 2 * List.foldr (fun b acc => b.val + 2 * acc) 0 row) / 2
              = List.foldr (fun b acc => b.val + 2 * acc) 0 row := by
            rcases gf2_cases b with rfl | rfl <;> simp [ZMod.val] <;> omega
          rw [hdiv]
          exact ih j

/-- Unpacking a packed row recovers the row vector of the original list. -/
theorem unpackRow_packRow (n : Nat) (row : List GF2) :
    unpackRow n (packRow row) = listToVec n row := by
  funext j
  simp only [unpackRow, listToVec, packRow_testBit]
  rcases gf2_cases (row.getD j.val 0) with h | h <;> rw [h] <;> simp

/-- Unpacking turns the row-wise xor into vector addition over GF(2). -/
theorem unpackRow_xor (n : Nat) (w v : Nat) :
    unpackRow n (w ^^^ v) = unpackRow n w + unpackRow n v := by
  funext j
  simp only [unpackRow, Nat.testBit_xor, Pi.add_apply]
  cases hw : w.testBit j.val <;> cases hv : v.testBit j.val <;> simp <;> decide

/-- An unpacked entry is 1 exactly when the packed bit is set. -/
theorem unpackRow_eq_one_iff (n : Nat) (w : Nat) (j : Fin n) :
    unpackRow n w j = 1 ↔ w.testBit j.val = true := by
  simp only [unpackRow]
  split <;> simp_all

/-- An unpacked entry is 0 exactly when the packed bit is clear. -/
theorem unpackRow_eq_zero_iff (n : Nat) (w : Nat) (j : Fin n) :
    unpackRow n w j = 0 ↔ w.testBit j.val = false := by
  simp only [unpackRow]
  split <;> simp_all

/-- Unpacking the zero word gives the zero vector. -/
theorem unpackRow_zero (n : Nat) : unpackRow n 0 = 0 := by
  funext j
  simp [unpackRow]

/-- Reading `getD` at an in-range index is `getElem`. -/
theorem getD_eq_getElem' {α : Type} (l : List α) (d : α) {k : Nat} (h : k < l.length) :
    l.getD k d = l[k] := by
  simp [List.getD_eq_getElem?_getD, List.getElem?_eq_getElem h]

end Planqtn

namespace Planqtn

/-! Properties of the row swap. -/

/-- With both indices in range, the swap is two `set`s. -/
theorem swapRowsP_eq (l : List Nat) (a b : Nat) (ha : a < l.length) (hb : b < l.length) :
    swapRowsP l a b = (l.set a l[b]).set b l[a] := by
  unfold swapRowsP
  rw [List.getElem?_eq_getElem ha, List.getElem?_eq_getElem hb]

/-- Swapping preserves the length. -/
theorem swapRowsP_length (l : List Nat) (a b : Nat) (ha : a < l.length)
    (hb : b < l.length) : (swapRowsP l a b).length = l.length := by
  rw [swapRowsP_eq l a b ha hb]
  simp

/-- Reading an entry of the swapped list reads the source through the
transposition of the two indices. -/
theorem swapRowsP_getD (l : List Nat) (a b k : Nat) (ha : a < l.length)
    (hb : b < l.length) (hab : a ≠ b) :
    (swapRowsP l a b).getD k 0 =
      l.getD (if k = a then b else if k = b then a else k) 0 := by
  rw [swapRowsP_eq l a b ha hb]
  have hba : ¬(b = a) := fun h => hab h.symm
  by_cases hka : k = a
  · subst hka
    rw [if_pos rfl]
    simp only [List.getD_eq_getElem?_getD]
    rw [List.getElem?_set_ne hba, List.getElem?_set_self ha, List.getElem?_eq_getElem hb]
  · by_cases hkb : k = b
    · subst hkb
      rw [if_neg hka, if_pos rfl]
      simp only [List.getD_eq_getElem?_getD]
      rw [List.getElem?_set_self (by simpa using hb), List.getElem?_eq_getElem ha]
    · rw [if_neg hka, if_neg hkb]
      simp only [List.getD_eq_getElem?_getD]
      rw [List.getElem?_set_ne (fun h => hkb h.symm), List.getElem?_set_ne (fun h => hka h.symm)]

/-- Swapping preserves membership (the multiset of rows is unchanged). -/
theorem swapRowsP_mem_iff (l : List Nat) (a b : Nat) (ha : a < l.length)
    (hb : b < l.length) : ∀ x, x ∈ swapRowsP l a b ↔ x ∈ l := by
  rw [swapRowsP_eq l a b ha hb]
  intro x
  constructor
  · intro hx
    rcases List.mem_or_eq_of_mem_set hx with hx | rfl
    · rcases List.mem_or_eq_of_mem_set hx with hx | rfl
      · exact hx
      · exact List.getElem_mem hb
    · exact List.getElem_mem ha
  · intro hx
    rw [List.mem_iff_getElem] at hx
    obtain ⟨k, hk, rfl⟩ := hx
    by_cases hka : k = a
    · subst hka
      have hsw : ((l.set k l[b]).set b l[k])[b]? = some l[k] :=
        List.getElem?_set_self (by simpa using hb)
      exact List.mem_iff_getElem?.mpr ⟨b, hsw⟩
    · by_cases hkb : k = b
      · subst hkb
        have hsw : ((l.set a l[k]).set k l[a])[a]? = some l[k] := by
          rw [List.getElem?_set_ne hka, List.getElem?_set_self ha]
        exact List.mem_iff_getElem?.mpr ⟨a, hsw⟩
      · have hsw : ((l.set a l[b]).set b l[a])[k]? = some l[k] := by
          rw [List.getElem?_set_ne (fun h => hkb h.symm),
            List.getElem?_set_ne (fun h => hka h.symm)]
          exact List.getElem?_eq_getElem hk
        exact List.mem_iff_getElem?.mpr ⟨k, hsw⟩

end Planqtn

namespace Planqtn

/-! Properties of the elimination step and of the pivot search. -/

/-- With the pivot row in range, the elimination is a take/map-drop split. -/
theorem eliminateP_eq (packed : List Nat) (r c : Nat) (hr : r < packed.length) :
    eliminateP packed r c = packed.take (r + 1) ++
      (packed.drop (r + 1)).map (fun w => if w.testBit c then w ^^^ packed[r] else w) := by
  unfold eliminateP
  rw [List.getElem?_eq_getElem hr]

/-- Elimination preserves the length. -/
theorem eliminateP_length (packed : List Nat) (r c : Nat) (hr : r < packed.length) :
    (eliminateP packed r c).length = packed.length := by
  rw [eliminateP_eq packed r c hr]
  simp only [List.length_append, List.length_take, List.length_map, List.length_drop]
  omega

/-- Rows up to and including the pivot row are unchanged by elimination. -/
theorem eliminateP_getD_le (packed : List Nat) (r c k : Nat) (hr : r < packed.length)
    (hk : k ≤ r) :
    (eliminateP packed r c).getD k 0 = packed.getD k 0 := by
  rw [eliminateP_eq packed r c hr]
  have hk2 : k < packed.length := lt_of_le_of_lt hk hr
  have hk' : k < (packed.take (r + 1)).length := by
    simp only [List.length_take]
    omega
  have hlen : k < (packed.take (r + 1) ++
      (packed.drop (r + 1)).map (fun w => if w.testBit c then w ^^^ packed[r] else w)).length := by
    simp only [List.length_append, List.length_take, List.length_map, List.length_drop]
    omega
  rw [getD_eq_getElem' _ 0 hlen, getD_eq_getElem' _ 0 hk2,
    List.getElem_append_left hk', List.getElem_take]

/-- Rows strictly below the pivot row are xor-ed with the pivot row when their
current-column bit is set. -/
theorem eliminateP_getD_gt (packed : List Nat) (r c k : Nat) (hr : r < packed.length)
    (hk1 : r < k) (hk2 : k < packed.length) :
    (eliminateP packed r c).getD k 0 =
      if (packed.getD k 0).testBit c then packed.getD k 0 ^^^ packed.getD r 0
      else packed.getD k 0 := by
  rw [eliminateP_eq packed r c hr]
  have htk : (packed.take (r + 1)).length ≤ k := by
    simp only [List.length_take]
    omega
  have harith : r + 1 + (k - (packed.take (r + 1)).length) = k := by
    simp only [List.length_take]
    omega
  rw [List.getD_eq_getElem?_getD, List.getElem?_append_right htk, List.getElem?_map,
    List.getElem?_drop, harith, List.getElem?_eq_getElem hk2]
  rw [getD_eq_getElem' _ 0 hk2, getD_eq_getElem' _ 0 hr]
  rfl

/-- The pivot search finds nothing exactly when every row from `r` down has a
clear bit in the current column. -/
theorem findPivotP_none_iff (packed : List Nat) (r c : Nat) :
    findPivotP packed r c = none ↔ ∀ w ∈ packed.drop r, w.testBit c = false := by
  unfold findPivotP
  simp [List.findIdx?_eq_none_iff]

/-- A found pivot lies in range `r ≤ p < m` and has the current-column bit set. -/
theorem findPivotP_some (packed : List Nat) (r c p : Nat)
    (h : findPivotP packed r c = some p) :
    r ≤ p ∧ p < packed.length ∧ (packed.getD p 0).testBit c = true := by
  unfold findPivotP at h
  rw [Option.map_eq_some'] at h
  obtain ⟨idx, hidx, hp⟩ := h
  rw [List.findIdx?_eq_some_iff_getElem] at hidx
  obtain ⟨hlt, hbit, _⟩ := hidx
  have hlen : idx < packed.length - r := by simpa using hlt
  have hplen : p < packed.length := by omega
  refine ⟨by omega, hplen, ?_⟩
  rw [getD_eq_getElem' _ 0 hplen]
  have h1 : (packed.drop r)[idx]? = some ((packed.drop r)[idx]) :=
    List.getElem?_eq_getElem hlt
  rw [List.getElem?_drop] at h1
  have hridx : r + idx = p := by omega
  rw [hridx] at h1
  have h2 : packed[p]? = some packed[p] := List.getElem?_eq_getElem hplen
  rw [h1] at h2
  have h3 : packed[p] = (packed.drop r)[idx] := (Option.some.inj h2).symm
  rw [h3]
  exact hbit

end Planqtn

namespace Planqtn

/-! Row-space preservation of the elementary operations. -/

/-- Adding a GF(2) vector twice cancels. -/
theorem gf2_vec_cancel {n : Nat} (a b : Fin n → GF2) : (a + b) + b = a := by
  funext j
  simp only [Pi.add_apply]
  rw [add_assoc, gf2_add_self, add_zero]

/-- Lists with the same members span the same row space. -/
theorem rowSpan_congr_mem {n : Nat} (L1 L2 : List (Fin n → GF2))
    (h : ∀ x, x ∈ L1 ↔ x ∈ L2) : rowSpan n L1 = rowSpan n L2 := by
  unfold rowSpan
  congr 1
  ext x
  exact h x

/-- Swapping two rows preserves the row space. -/
theorem rowSpan_swap {n : Nat} (packed : List Nat) (a b : Nat)
    (ha : a < packed.length) (hb : b < packed.length) :
    rowSpan n ((swapRowsP packed a b).map (unpackRow n)) =
      rowSpan n (packed.map (unpackRow n)) := by
  apply rowSpan_congr_mem
  intro x
  simp only [List.mem_map]
  constructor <;> rintro ⟨w, hw, rfl⟩
  · exact ⟨w, (swapRowsP_mem_iff packed a b ha hb w).mp hw, rfl⟩
  · exact ⟨w, (swapRowsP_mem_iff packed a b ha hb w).mpr hw, rfl⟩

/-- The elimination step preserves the row space (over GF(2), adding the pivot
row to a row is reversed by adding it again). -/
theorem rowSpan_eliminate {n : Nat} (packed : List Nat) (r c : Nat)
    (hr : r < packed.length) :
    rowSpan n ((eliminateP packed r c).map (unpackRow n)) =
      rowSpan n (packed.map (unpackRow n)) := by
  rw [eliminateP_eq packed r c hr]
  have hprmem : packed[r] ∈ packed.take (r + 1) := by
    have hb : r < (packed.take (r + 1)).length := by
      simp only [List.length_take]
      omega
    refine List.mem_iff_getElem.mpr ⟨r, hb, ?_⟩
    rw [List.getElem_take]
  unfold rowSpan
  apply Submodule.span_eq_span
  · intro x hx
    simp only [Set.mem_setOf_eq, List.map_append, List.mem_append, List.mem_map] at hx
    rcases hx with ⟨w, hw, rfl⟩ | ⟨w, hw, rfl⟩
    · exact Submodule.subset_span (by
        simp only [Set.mem_setOf_eq, List.mem_map]
        exact ⟨w, List.mem_of_mem_take hw, rfl⟩)
    · obtain ⟨v, hv, rfl⟩ := hw
      by_cases hbit : v.testBit c
      · rw [if_pos hbit, unpackRow_xor]
        apply Submodule.add_mem
        · exact Submodule.subset_span (by
            simp only [Set.mem_setOf_eq, List.mem_map]
            exact ⟨v, List.mem_of_mem_drop hv, rfl⟩)
        · exact Submodule.subset_span (by
            simp only [Set.mem_setOf_eq, List.mem_map]
            exact ⟨packed[r], List.getElem_mem hr, rfl⟩)
      · rw [if_neg hbit]
        exact Submodule.subset_span (by
          simp only [Set.mem_setOf_eq, List.mem_map]
          exact ⟨v, List.mem_of_mem_drop hv, rfl⟩)
  · intro x hx
    simp only [Set.mem_setOf_eq, List.mem_map] at hx
    obtain ⟨w, hw, rfl⟩ := hx
    have hsplit : w ∈ packed.take (r + 1) ∨ w ∈ packed.drop (r + 1) := by
      rw [← List.mem_append, List.take_append_drop]
      exact hw
    have hmem_take : ∀ v ∈ packed.take (r + 1),
        unpackRow n v ∈ {x : Fin n → GF2 | x ∈ (packed.take (r + 1) ++
          (packed.drop (r + 1)).map
            (fun w => if w.testBit c then w ^^^ packed[r] else w)).map (unpackRow n)} := by
      intro v hv
      simp only [Set.mem_setOf_eq, List.map_append, List.mem_append, List.mem_map]
      exact Or.inl ⟨v, hv, rfl⟩
    rcases hsplit with hw1 | hw1
    · exact Submodule.subset_span (hmem_take w hw1)
    · by_cases hbit : w.testBit c
      · have hxw : unpackRow n w = unpackRow n (w ^^^ packed[r]) + unpackRow n packed[r] := by
          rw [← unpackRow_xor, Nat.xor_cancel_right]
        rw [hxw]
        apply Submodule.add_mem
        · apply Submodule.subset_span
          simp only [Set.mem_setOf_eq, List.map_append, List.mem_append, List.mem_map]
          exact Or.inr ⟨w ^^^ packed[r], ⟨w, hw1, by rw [if_pos hbit]⟩, rfl⟩
        · exact Submodule.subset_span (hmem_take packed[r] hprmem)
      · have : unpackRow n w = unpackRow n (if w.testBit c then w ^^^ packed[r] else w) := by
          rw [if_neg hbit]
        rw [this]
        apply Submodule.subset_span
        simp only [Set.mem_setOf_eq, List.map_append, List.mem_append, List.mem_map]
        exact Or.inr ⟨if w.testBit c then w ^^^ packed[r] else w, ⟨w, hw1, rfl⟩, rfl⟩

end Planqtn

namespace Planqtn

/-- A column with no pivot advances the invariant without a new pivot row. -/
theorem gaussInv_step_none {n : Nat} {A : List (Fin n → GF2)} {c : Nat}
    {packed : List Nat} {r : Nat} (inv : GaussInv n A c packed r)
    (h : findPivotP packed r c = none) : GaussInv n A (c + 1) packed r := by
  refine ⟨inv.hr, inv.hspan, ?_, ?_⟩
  · intro i hi hilen j hj
    rcases Nat.lt_or_ge j c with hj' | hj'
    · exact inv.hbelow i hi hilen j hj'
    · have hjc : j = c := by omega
      rw [hjc]
      have hmem : packed.getD i 0 ∈ packed.drop r := by
        rw [getD_eq_getElem' packed 0 hilen]
        have hi2 : i - r < (packed.drop r).length := by
          simp only [List.length_drop]
          omega
        refine List.mem_iff_getElem.mpr ⟨i - r, hi2, ?_⟩
        rw [List.getElem_drop]
        congr 1
        omega
      exact (findPivotP_none_iff packed r c).mp h _ hmem
  · intro i hi
    obtain ⟨p, hp, hbit, hall⟩ := inv.hpiv i hi
    exact ⟨p, by omega, hbit, hall⟩

/-- A column with a pivot: after the swap and the elimination below the pivot,
the invariant advances with one more pivot row. -/
theorem gaussInv_step_some {n : Nat} {A : List (Fin n → GF2)} {c : Nat}
    {packed : List Nat} {r p : Nat} (inv : GaussInv n A c packed r)
    (h : findPivotP packed r c = some p) :
    GaussInv n A (c + 1)
      (eliminateP (if p = r then packed else swapRowsP packed r p) r c) (r + 1)
    ∧ (eliminateP (if p = r then packed else swapRowsP packed r p) r c).length
        = packed.length := by
  obtain ⟨hrp, hplen, hpbit⟩ := findPivotP_some packed r c p h
  have hrlen : r < packed.length := lt_of_le_of_lt hrp hplen
  set packed1 := if p = r then packed else swapRowsP packed r p with hp1
  have h1len : packed1.length = packed.length := by
    rw [hp1]
    split
    · rfl
    · exact swapRowsP_length packed r p hrlen hplen
  have h1getD : ∀ k, packed1.getD k 0 =
      packed.getD (if k = r then p else if k = p then r else k) 0 := by
    intro k
    rw [hp1]
    split
    · rename_i hpr
      subst hpr
      by_cases hk : k = p <;> simp [hk]
    · rename_i hpr
      exact swapRowsP_getD packed r p k hrlen hplen (fun hh => hpr hh.symm)
  have h1mem : ∀ x, x ∈ packed1 ↔ x ∈ packed := by
    intro x
    rw [hp1]
    split
    · exact Iff.rfl
    · exact swapRowsP_mem_iff packed r p hrlen hplen x
  have h1span : rowSpan n (packed1.map (unpackRow n)) =
      rowSpan n (packed.map (unpackRow n)) := by
    apply rowSpan_congr_mem
    intro x
    simp only [List.mem_map]
    constructor <;> rintro ⟨w, hw, rfl⟩
    · exact ⟨w, (h1mem w).mp hw, rfl⟩
    · exact ⟨w, (h1mem w).mpr hw, rfl⟩
  have h1below : ∀ i, r ≤ i → i < packed.length → ∀ j, j < c →
      (packed1.getD i 0).testBit j = false := by
    intro i hi hilen j hj
    rw [h1getD i]
    by_cases hir : i = r
    · rw [if_pos hir]
      exact inv.hbelow p hrp hplen j hj
    · by_cases hip : i = p
      · rw [if_neg hir, if_pos hip]
        exact inv.hbelow r le_rfl hrlen j hj
      · rw [if_neg hir, if_neg hip]
        exact inv.hbelow i hi hilen j hj
  have h1rbit : (packed1.getD r 0).testBit c = true := by
    rw [h1getD r, if_pos rfl]
    exact hpbit
  have h1piv : ∀ i, i < r → ∃ q, q < c ∧ (packed1.getD i 0).testBit q = true ∧
      ∀ k, i < k → k < packed.length → (packed1.getD k 0).testBit q = false := by
    intro i hi
    obtain ⟨q, hq, hbit, hall⟩ := inv.hpiv i hi
    refine ⟨q, hq, ?_, ?_⟩
    · rw [h1getD i, if_neg (by omega), if_neg (by omega)]
      exact hbit
    · intro k hk hklen
      rw [h1getD k]
      by_cases hkr : k = r
      · rw [if_pos hkr]
        exact hall p (by omega) hplen
      · by_cases hkp : k = p
        · rw [if_neg hkr, if_pos hkp]
          exact hall r (by omega) hrlen
        · rw [if_neg hkr, if_neg hkp]
          exact hall k hk hklen
  have hrlen1 : r < packed1.length := by omega
  have h2len : (eliminateP packed1 r c).length = packed.length := by
    rw [eliminateP_length packed1 r c hrlen1, h1len]
  have h2le : ∀ k, k ≤ r → (eliminateP packed1 r c).getD k 0 = packed1.getD k 0 :=
    fun k hk => eliminateP_getD_le packed1 r c k hrlen1 hk
  have h2gt : ∀ k, r < k → k < packed.length →
      (eliminateP packed1 r c).getD k 0 =
        if (packed1.getD k 0).testBit c then packed1.getD k 0 ^^^ packed1.getD r 0
        else packed1.getD k 0 := by
    intro k hk1 hk2
    exact eliminateP_getD_gt packed1 r c k hrlen1 hk1 (by omega)
  refine ⟨⟨?_, ?_, ?_, ?_⟩, h2len⟩
  · rw [h2len]
    omega
  · rw [rowSpan_eliminate packed1 r c hrlen1, h1span]
    exact inv.hspan
  · intro i hi hilen j hj
    rw [h2len] at hilen
    have hig : r < i := by omega
    rw [h2gt i hig hilen]
    rcases Nat.lt_or_ge j c with hj' | hj'
    · have hw := h1below i (by omega) hilen j hj'
      have hpr := h1below r le_rfl hrlen j hj'
      split
      · rw [Nat.testBit_xor, hw, hpr]
        rfl
      · exact hw
    · have hjc : j = c := by omega
      rw [hjc]
      by_cases hbitw : (packed1.getD i 0).testBit c
      · rw [if_pos hbitw, Nat.testBit_xor, hbitw, h1rbit]
        rfl
      · rw [if_neg hbitw]
        simpa using hbitw
  · intro i hi1
    by_cases hir : i < r
    · obtain ⟨q, hq, hbit, hall⟩ := h1piv i hir
      refine ⟨q, by omega, ?_, ?_⟩
      · rw [h2le i (by omega)]
        exact hbit
      · intro k hk hklen
        rw [h2len] at hklen
        by_cases hkr : k ≤ r
        · rw [h2le k hkr]
          exact hall k hk hklen
        · rw [h2gt k (by omega) hklen]
          have hwq := hall k hk hklen
          have hprq := hall r (by omega) hrlen
          split
          · rw [Nat.testBit_xor, hwq, hprq]
            rfl
          · exact hwq
    · have hieq : i = r := by omega
      subst hieq
      refine ⟨c, by omega, ?_, ?_⟩
      · rw [h2le i le_rfl]
        exact h1rbit
      · intro k hk hklen
        rw [h2len] at hklen
        rw [h2gt k hk hklen]
        by_cases hbitw : (packed1.getD k 0).testBit c
        · rw [if_pos hbitw, Nat.testBit_xor, hbitw, h1rbit]
          rfl
        · rw [if_neg hbitw]
          simpa using hbitw

end Planqtn

namespace Planqtn

/-- Running the column loop from a valid invariant state ends in a valid state:
either every remaining column was processed, or the loop exited early with as
many pivots as rows. -/
theorem gaussLoop_invariant {n : Nat} {A : List (Fin n → GF2)} :
    ∀ (k c : Nat) (packed : List Nat) (r : Nat),
      GaussInv n A c packed r →
      ∃ c', c ≤ c' ∧ c' ≤ c + k ∧
        GaussInv n A c' (gaussLoopP packed.length packed r (List.range' c k)).1
          (gaussLoopP packed.length packed r (List.range' c k)).2 ∧
        (gaussLoopP packed.length packed r (List.range' c k)).1.length = packed.length ∧
        ((gaussLoopP packed.length packed r (List.range' c k)).2 = packed.length ∨
          c' = c + k) := by
  intro k
  induction k with
  | zero =>
      intro c packed r inv
      exact ⟨c, le_rfl, by omega, inv, rfl, Or.inr rfl⟩
  | succ k ih =>
      intro c packed r inv
      rw [List.range'_succ]
      cases hfp : findPivotP packed r c with
      | none =>
          have heq : gaussLoopP packed.length packed r (c :: List.range' (c + 1) k) =
              gaussLoopP packed.length packed r (List.range' (c + 1) k) := by
            simp only [gaussLoopP, hfp]
          rw [heq]
          have inv' := gaussInv_step_none inv hfp
          obtain ⟨c', h1, h2, h3, h4, h5⟩ := ih (c + 1) packed r inv'
          exact ⟨c', by omega, by omega, h3, h4,
            h5.imp (fun h => h) (fun h => by omega)⟩
      | some p =>
          obtain ⟨inv2, hlen2⟩ := gaussInv_step_some inv hfp
          by_cases hrm : r + 1 = packed.length
          · have heq : gaussLoopP packed.length packed r (c :: List.range' (c + 1) k) =
                (eliminateP (if p = r then packed else swapRowsP packed r p) r c, r + 1) := by
              simp only [gaussLoopP, hfp, if_pos hrm]
            rw [heq]
            exact ⟨c + 1, by omega, by omega, inv2, hlen2, Or.inl hrm⟩
          · have heq : gaussLoopP packed.length packed r (c :: List.range' (c + 1) k) =
                gaussLoopP packed.length
                  (eliminateP (if p = r then packed else swapRowsP packed r p) r c)
                  (r + 1) (List.range' (c + 1) k) := by
              simp only [gaussLoopP, hfp, if_neg hrm]
            rw [heq]
            have ihres := ih (c + 1)
              (eliminateP (if p = r then packed else swapRowsP packed r p) r c) (r + 1) inv2
            rw [hlen2] at ihres
            obtain ⟨c', h1, h2, h3, h4, h5⟩ := ihres
            exact ⟨c', by omega, by omega, h3, h4,
              h5.imp (fun h => h) (fun h => by omega)⟩

end Planqtn

namespace Planqtn

/-- The fixed pivot rows of a final elimination state are linearly independent:
each has a pivot column where every later row is zero. -/
theorem pivot_linearIndependent {n : Nat} (packed : List Nat) (r : Nat)
    (hr : r ≤ packed.length)
    (hpiv : ∀ i, i < r → ∃ p, p < n ∧ (packed.getD i 0).testBit p = true ∧
      ∀ k, i < k → k < packed.length → (packed.getD k 0).testBit p = false) :
    LinearIndependent GF2 (fun i : Fin r => unpackRow n (packed.getD i.val 0)) := by
  rw [linearIndependent_iff']
  intro s g hsum
  suffices H : ∀ t : Nat, ∀ i ∈ s, i.val = t → g i = 0 by
    intro i hi
    exact H i.val i hi rfl
  intro t
  induction t using Nat.strong_induction_on with
  | _ t IH =>
      intro i hi hit
      obtain ⟨p, hpn, hbit, hall⟩ := hpiv i.val i.isLt
      have hev := congrFun hsum ⟨p, hpn⟩
      rw [Finset.sum_apply] at hev
      simp only [Pi.smul_apply, smul_eq_mul, Pi.zero_apply] at hev
      have h0 : ∀ b ∈ s, b ≠ i →
          g b * unpackRow n (packed.getD b.val 0) ⟨p, hpn⟩ = 0 := by
        intro b hb hbne
        rcases Nat.lt_trichotomy b.val i.val with hlt | heq | hgt
        · rw [IH b.val (by omega) b hb rfl, zero_mul]
        · exact absurd (Fin.ext heq) hbne
        · have hzb : unpackRow n (packed.getD b.val 0) ⟨p, hpn⟩ = 0 :=
            (unpackRow_eq_zero_iff n _ ⟨p, hpn⟩).mpr
              (hall b.val hgt (by omega))
          rw [hzb, mul_zero]
      have h1 : i ∉ s → g i * unpackRow n (packed.getD i.val 0) ⟨p, hpn⟩ = 0 :=
        fun hns => absurd hi hns
      have hsingle := Finset.sum_eq_single i h0 h1
      rw [hsingle] at hev
      rw [(unpackRow_eq_one_iff n _ ⟨p, hpn⟩).mpr hbit, mul_one] at hev
      exact hev

/-- In a final state whose non-pivot rows are all zero (or absent), the row
space has dimension exactly the number of pivot rows. -/
theorem finrank_of_final {n : Nat} (packed : List Nat) (r : Nat)
    (hr : r ≤ packed.length)
    (hpiv : ∀ i, i < r → ∃ p, p < n ∧ (packed.getD i 0).testBit p = true ∧
      ∀ k, i < k → k < packed.length → (packed.getD k 0).testBit p = false)
    (hzero : r = packed.length ∨ ∀ i, r ≤ i → i < packed.length →
      unpackRow n (packed.getD i 0) = 0) :
    Module.finrank GF2 (rowSpan n (packed.map (unpackRow n))) = r := by
  have hind := pivot_linearIndependent packed r hr hpiv
  have hspan : rowSpan n (packed.map (unpackRow n)) =
      Submodule.span GF2 (Set.range (fun i : Fin r => unpackRow n (packed.getD i.val 0))) := by
    unfold rowSpan
    apply Submodule.span_eq_span
    · intro x hx
      simp only [Set.mem_setOf_eq, List.mem_map] at hx
      obtain ⟨w, hw, rfl⟩ := hx
      rw [List.mem_iff_getElem] at hw
      obtain ⟨kk, hkk, rfl⟩ := hw
      by_cases hkr : kk < r
      · apply Submodule.subset_span
        refine ⟨⟨kk, hkr⟩, ?_⟩
        show unpackRow n (packed.getD kk 0) = unpackRow n packed[kk]
        rw [getD_eq_getElem' _ 0 hkk]
      · rcases hzero with hzero | hzero
        · exact absurd hkk (by omega)
        · have hz : unpackRow n packed[kk] = 0 := by
            have hh := hzero kk (by omega) hkk
            rwa [getD_eq_getElem' _ 0 hkk] at hh
          rw [hz]
          exact Submodule.zero_mem _
    · rintro x ⟨i, rfl⟩
      apply Submodule.subset_span
      simp only [Set.mem_setOf_eq, List.mem_map]
      refine ⟨packed.getD i.val 0, ?_, rfl⟩
      rw [getD_eq_getElem' _ 0 (by omega : i.val < packed.length)]
      exact List.getElem_mem (by omega)
  rw [hspan, finrank_span_eq_card hind]
  simp

end Planqtn

namespace Planqtn

/-- A packed row with no set bit below `n` unpacks to the zero vector. -/
theorem unpackRow_eq_zero_of (n : Nat) (w : Nat)
    (h : ∀ j, j < n → w.testBit j = false) : unpackRow n w = 0 := by
  funext j
  simp [unpackRow, h j.val j.isLt]

/-- Main correctness of the rank engine: on a rectangular 0/1 matrix with `n`
columns, `rank_gf2` computes the dimension of the GF(2) span of the rows. -/
theorem rank_gf2_eq_finrank_rowSpan (n : Nat) (A : List (List GF2))
    (hrect : ∀ row ∈ A, row.length = n) :
    rank_gf2 A = Module.finrank GF2 (rowSpan n (A.map (listToVec n))) := by
  cases A with
  | nil =>
      have hbot : rowSpan n (([] : List (List GF2)).map (listToVec n)) = ⊥ := by
        unfold rowSpan
        have hset : {x : Fin n → GF2 | x ∈ (([] : List (List GF2)).map (listToVec n))} = ∅ := by
          ext x
          simp
        rw [hset]
        exact Submodule.span_empty
      rw [hbot, finrank_bot]
      rfl
  | cons row rest =>
      have hn : (((row :: rest) : List (List GF2)).headD []).length = n := by
        simp only [List.headD_cons]
        exact hrect row (List.mem_cons_self row rest)
      have inv0 : GaussInv n ((row :: rest).map (listToVec n)) 0
          ((row :: rest).map packRow) 0 := by
        refine ⟨Nat.zero_le _, ?_, ?_, ?_⟩
        · have hmap : ((row :: rest).map packRow).map (unpackRow n) =
              (row :: rest).map (listToVec n) := by
            rw [List.map_map]
            exact List.map_congr_left (fun r _ => unpackRow_packRow n r)
          rw [hmap]
        · intro i hi hilen j hj
          omega
        · intro i hi
          omega
      have hml : ((row :: rest).map packRow).length = (row :: rest).length :=
        List.length_map _ _
      obtain ⟨c', hc1, hc2, inv', hlen', hdone⟩ :=
        gaussLoop_invariant n 0 ((row :: rest).map packRow) 0 inv0
      simp only [rank_gf2, hn, List.range_eq_range']
      rw [← hml]
      rw [← inv'.hspan]
      refine (finrank_of_final _ _ inv'.hr ?_ ?_).symm
      · intro i hi
        obtain ⟨p, hp, hbit, hall⟩ := inv'.hpiv i hi
        exact ⟨p, by omega, hbit, hall⟩
      · rcases hdone with hdone | hdone
        · left
          rw [hlen', hdone]
        · right
          intro i hge hlt
          apply unpackRow_eq_zero_of
          intro j hj
          exact inv'.hbelow i hge hlt j (by omega)

end Planqtn

namespace Planqtn

/-- A row of zeros packs to the zero word. -/
theorem packRow_zeros : ∀ row : List GF2, (∀ x ∈ row, x = 0) → packRow row = 0 := by
  intro row
  induction row with
  | nil => intro _; rfl
  | cons b rest ih =>
      intro h
      have hb : b = 0 := h b (List.mem_cons_self b rest)
      have hrest : packRow rest = 0 := ih (fun x hx => h x (List.mem_cons_of_mem b hx))
      simp only [packRow, List.foldr_cons] at *
      rw [hrest, hb]
      rfl

/-- The column loop never finds a pivot among all-zero rows. -/
theorem gaussLoopP_zeros : ∀ (cs : List Nat) (m : Nat) (packed : List Nat) (r : Nat),
    (∀ w ∈ packed, w = 0) → (gaussLoopP m packed r cs).2 = r := by
  intro cs
  induction cs with
  | nil => intro m packed r _; rfl
  | cons c cs ih =>
      intro m packed r h
      have hnone : findPivotP packed r c = none := by
        rw [findPivotP_none_iff]
        intro w hw
        rw [h w (List.mem_of_mem_drop hw)]
        exact Nat.zero_testBit c
      simp only [gaussLoopP, hnone]
      exact ih m packed r h

/-- The rank of any all-zero matrix is 0. -/
theorem rank_gf2_zeros (A : List (List GF2)) (h : ∀ row ∈ A, ∀ x ∈ row, x = 0) :
    rank_gf2 A = 0 := by
  simp only [rank_gf2]
  apply gaussLoopP_zeros
  intro w hw
  obtain ⟨row, hrow, rfl⟩ := List.mem_map.mp hw
  exact packRow_zeros row (h row hrow)

/-- The rows of the `Matrix` view are exactly the row vectors of the list. -/
theorem range_toMat (n : Nat) (A : List (List GF2)) :
    Set.range (toMat n A) = {x | x ∈ A.map (listToVec n)} := by
  ext x
  constructor
  · rintro ⟨i, rfl⟩
    exact List.mem_map.mpr ⟨A.get i, List.mem_iff_get.mpr ⟨i, rfl⟩, rfl⟩
  · intro hx
    obtain ⟨row, hrow, rfl⟩ := List.mem_map.mp hx
    obtain ⟨i, rfl⟩ := List.mem_iff_get.mp hrow
    exact ⟨i, rfl⟩

/-- Running `rank_gf2` on a rectangular 0/1 matrix gives the Mathlib rank of its `Matrix`
view over GF(2). -/
theorem rank_gf2_eq_matrix_rank (n : Nat) (A : List (List GF2))
    (hrect : ∀ row ∈ A, row.length = n) :
    rank_gf2 A = (toMat n A).rank := by
  rw [rank_gf2_eq_finrank_rowSpan n A hrect, Matrix.rank_eq_finrank_span_row, range_toMat]
  rfl

/-- The rows of the identity matrix are exactly the standard basis vectors. -/
theorem identityMat_rows (n : Nat) :
    ∀ x, x ∈ (identityMat n).map (listToVec n) ↔ ∃ i : Fin n, x = Pi.single i 1 := by
  intro x
  constructor
  · intro hx
    obtain ⟨row, hrow, rfl⟩ := List.mem_map.mp hx
    have hrow2 : ∃ a, a < n ∧ (List.range n).map (fun j => if a = j then 1 else 0) = row := by
      simpa [identityMat] using hrow
    obtain ⟨i, hin, rfl⟩ := hrow2
    refine ⟨⟨i, hin⟩, ?_⟩
    funext j
    simp only [listToVec, Pi.single_apply]
    rw [getD_eq_getElem' _ 0 (by simpa using j.isLt)]
    simp only [List.getElem_map, List.getElem_range]
    by_cases hij : i = j.val
    · rw [if_pos hij, if_pos (Fin.ext hij.symm)]
    · rw [if_neg hij, if_neg (fun hh => hij (congrArg Fin.val hh).symm)]
  · rintro ⟨i, rfl⟩
    apply List.mem_map.mpr
    refine ⟨(List.range n).map (fun j => if i.val = j then 1 else 0), ?_, ?_⟩
    · simp only [identityMat, List.mem_map]
      exact ⟨i.val, by simpa using i.isLt, rfl⟩
    · funext j
      simp only [listToVec, Pi.single_apply]
      rw [getD_eq_getElem' _ 0 (by simpa using j.isLt)]
      simp only [List.getElem_map, List.getElem_range]
      by_cases hij : i.val = j.val
      · rw [if_pos hij, if_pos (Fin.ext hij.symm)]
      · rw [if_neg hij, if_neg (fun hh => hij (congrArg Fin.val hh).symm)]

/-- Running `rank_gf2` on the identity matrix gives its size. -/
theorem rank_gf2_identity (n : Nat) : rank_gf2 (identityMat n) = n := by
  have hrect : ∀ row ∈ identityMat n, row.length = n := by
    intro row hrow
    have hrow2 : ∃ a, a < n ∧ (List.range n).map (fun j => if a = j then 1 else 0) = row := by
      simpa [identityMat] using hrow
    obtain ⟨i, _, rfl⟩ := hrow2
    simp
  rw [rank_gf2_eq_finrank_rowSpan n (identityMat n) hrect]
  have hset : {x : Fin n → GF2 | x ∈ (identityMat n).map (listToVec n)} =
      Set.range (fun i : Fin n => Pi.single i (1 : GF2)) := by
    ext x
    rw [Set.mem_setOf_eq, identityMat_rows n x]
    constructor
    · rintro ⟨i, rfl⟩
      exact ⟨i, rfl⟩
    · rintro ⟨i, rfl⟩
      exact ⟨i, rfl⟩
  have hbasis : Set.range (fun i : Fin n => Pi.single i (1 : GF2)) =
      Set.range (Pi.basisFun GF2 (Fin n)) := by
    apply congrArg
    funext i
    rw [Pi.basisFun_apply]
  unfold rowSpan
  rw [hset, hbasis, Basis.span_eq, finrank_top, Module.finrank_pi]
  simp

end Planqtn

namespace Planqtn

/-- C3: `rank_gf2` of a rectangular 0/1 matrix (any row and column count, the
column count need not be divisible by the packing word width) is the GF(2) rank
of the matrix; in particular it is 0 on every all-zero matrix and `n` on the
`n` by `n` identity matrix. -/
theorem claim_C3_rank_gf2_correct :
    (∀ (n : Nat) (A : List (List GF2)), (∀ row ∈ A, row.length = n) →
      rank_gf2 A = (toMat n A).rank)
    ∧ (∀ m n : Nat, rank_gf2 (zeroMat m n) = 0)
    ∧ (∀ n : Nat, rank_gf2 (identityMat n) = n) := by
  refine ⟨fun n A hrect => rank_gf2_eq_matrix_rank n A hrect, fun m n => ?_,
    rank_gf2_identity⟩
  apply rank_gf2_zeros
  intro row hrow x hx
  rw [List.eq_of_mem_replicate hrow] at hx
  exact List.eq_of_mem_replicate hx

/-- C3 witness: the theorem applied to a full-rank 3-by-3 matrix (3 columns, not
divisible by the byte width 8), an all-zero 2-by-3 matrix and the 3-by-3
identity. -/
theorem claim_C3_rank_gf2_correct_witness :
    (∀ row ∈ ([[1, 1, 1], [0, 1, 1], [1, 0, 1]] : List (List GF2)), row.length = 3)
    ∧ rank_gf2 [[1, 1, 1], [0, 1, 1], [1, 0, 1]] =
        (toMat 3 [[1, 1, 1], [0, 1, 1], [1, 0, 1]]).rank
    ∧ rank_gf2 (zeroMat 2 3) = 0
    ∧ rank_gf2 (identityMat 3) = 3 :=
  ⟨by decide, claim_C3_rank_gf2_correct.1 3 _ (by decide),
    claim_C3_rank_gf2_correct.2.1 2 3, claim_C3_rank_gf2_correct.2.2 3⟩

/-- Row vectors turn a pointwise `zipWith` sum of equal-length rows into a
vector sum. -/
theorem listToVec_zipWith_add (n : Nat) (u v : List GF2) (h : u.length = v.length) :
    listToVec n (List.zipWith (· + ·) u v) = listToVec n u + listToVec n v := by
  funext j
  simp only [listToVec, Pi.add_apply, List.getD_eq_getElem?_getD, List.getElem?_zipWith]
  by_cases hj : j.val < u.length
  · rw [List.getElem?_eq_getElem hj, List.getElem?_eq_getElem (by omega)]
    rfl
  · rw [List.getElem?_eq_none (by omega), List.getElem?_eq_none (by omega)]
    simp

end Planqtn

namespace Planqtn

/-- C4: `rank_gf2` is invariant under the elementary row operations: permuting
the rows, xor-ing one row into a different row, and appending a duplicate of an
existing row. -/
theorem claim_C4_rank_row_ops :
    (∀ (n : Nat) (A B : List (List GF2)), (∀ row ∈ A, row.length = n) →
      A.Perm B → rank_gf2 B = rank_gf2 A)
    ∧ (∀ (n : Nat) (A : List (List GF2)) (i k : Nat),
        (∀ row ∈ A, row.length = n) → i < A.length → k < A.length → i ≠ k →
        rank_gf2 (A.set k (List.zipWith (· + ·) (A.getD k []) (A.getD i []))) =
          rank_gf2 A)
    ∧ (∀ (n : Nat) (A : List (List GF2)) (i : Nat),
        (∀ row ∈ A, row.length = n) → i < A.length →
        rank_gf2 (A ++ [A.getD i []]) = rank_gf2 A) := by
  refine ⟨?_, ?_, ?_⟩
  · intro n A B hrect hperm
    have hrectB : ∀ row ∈ B, row.length = n := fun row hrow =>
      hrect row (hperm.mem_iff.mpr hrow)
    rw [rank_gf2_eq_finrank_rowSpan n B hrectB, rank_gf2_eq_finrank_rowSpan n A hrect]
    have hsp := rowSpan_congr_mem (B.map (listToVec n)) (A.map (listToVec n))
      (fun x => (hperm.map (listToVec n)).mem_iff.symm)
    rw [hsp]
  · intro n A i kk hrect hi hk hik
    have hAk : A.getD kk [] = A[kk] := getD_eq_getElem' A [] hk
    have hAi : A.getD i [] = A[i] := getD_eq_getElem' A [] hi
    have hlenk : (A[kk]).length = n := hrect _ (List.getElem_mem hk)
    have hleni : (A[i]).length = n := hrect _ (List.getElem_mem hi)
    set newRow := List.zipWith (· + ·) (A.getD kk []) (A.getD i []) with hnew
    have hnewlen : newRow.length = n := by
      rw [hnew, hAk, hAi, List.length_zipWith]
      omega
    have hrect' : ∀ row ∈ A.set kk newRow, row.length = n := by
      intro row hrow
      rcases List.mem_or_eq_of_mem_set hrow with hrow | rfl
      · exact hrect row hrow
      · exact hnewlen
    rw [rank_gf2_eq_finrank_rowSpan n _ hrect', rank_gf2_eq_finrank_rowSpan n A hrect]
    have hnewvec : listToVec n newRow = listToVec n A[kk] + listToVec n A[i] := by
      rw [hnew, hAk, hAi]
      exact listToVec_zipWith_add n _ _ (by omega)
    have hsp : rowSpan n ((A.set kk newRow).map (listToVec n)) =
        rowSpan n (A.map (listToVec n)) := by
      unfold rowSpan
      apply Submodule.span_eq_span
      · intro x hx
        simp only [Set.mem_setOf_eq, List.mem_map] at hx
        obtain ⟨row, hrow, rfl⟩ := hx
        rcases List.mem_or_eq_of_mem_set hrow with hrow | rfl
        · exact Submodule.subset_span (by
            simp only [Set.mem_setOf_eq, List.mem_map]
            exact ⟨row, hrow, rfl⟩)
        · rw [hnewvec]
          apply Submodule.add_mem
          · exact Submodule.subset_span (by
              simp only [Set.mem_setOf_eq, List.mem_map]
              exact ⟨A[kk], List.getElem_mem hk, rfl⟩)
          · exact Submodule.subset_span (by
              simp only [Set.mem_setOf_eq, List.mem_map]
              exact ⟨A[i], List.getElem_mem hi, rfl⟩)
      · intro x hx
        simp only [Set.mem_setOf_eq, List.mem_map] at hx
        obtain ⟨row, hrow, rfl⟩ := hx
        rw [List.mem_iff_getElem] at hrow
        obtain ⟨j, hj, rfl⟩ := hrow
        by_cases hjk : j = kk
        · subst hjk
          have hv1 : listToVec n newRow ∈
              {x : Fin n → GF2 | x ∈ (A.set j newRow).map (listToVec n)} := by
            simp only [Set.mem_setOf_eq, List.mem_map]
            refine ⟨newRow, ?_, rfl⟩
            exact List.mem_iff_getElem.mpr
              ⟨j, by simpa using hk, List.getElem_set_self (by simpa using hk)⟩
          have hv2 : listToVec n A[i] ∈
              {x : Fin n → GF2 | x ∈ (A.set j newRow).map (listToVec n)} := by
            simp only [Set.mem_setOf_eq, List.mem_map]
            refine ⟨A[i], ?_, rfl⟩
            refine List.mem_iff_getElem.mpr ⟨i, by simpa using hi, ?_⟩
            exact List.getElem_set_ne (fun hh => hik hh.symm) (by simpa using hi)
          have hdecomp : listToVec n A[j] =
              (listToVec n A[j] + listToVec n A[i]) + listToVec n A[i] :=
            (gf2_vec_cancel _ _).symm
          rw [hdecomp, ← hnewvec]
          exact Submodule.add_mem _ (Submodule.subset_span hv1) (Submodule.subset_span hv2)
        · apply Submodule.subset_span
          simp only [Set.mem_setOf_eq, List.mem_map]
          refine ⟨A[j], ?_, rfl⟩
          refine List.mem_iff_getElem.mpr ⟨j, by simpa using hj, ?_⟩
          exact List.getElem_set_ne (fun hh => hjk hh.symm) (by simpa using hj)
    rw [hsp]
  · intro n A i hrect hi
    have hrect' : ∀ row ∈ A ++ [A.getD i []], row.length = n := by
      intro row hrow
      rcases List.mem_append.mp hrow with hrow | hrow
      · exact hrect row hrow
      · rw [List.mem_singleton] at hrow
        subst hrow
        rw [getD_eq_getElem' A [] hi]
        exact hrect _ (List.getElem_mem hi)
    rw [rank_gf2_eq_finrank_rowSpan n _ hrect', rank_gf2_eq_finrank_rowSpan n A hrect]
    have hsp : rowSpan n ((A ++ [A.getD i []]).map (listToVec n)) =
        rowSpan n (A.map (listToVec n)) := by
      apply rowSpan_congr_mem
      intro x
      simp only [List.map_append, List.mem_append, List.map_cons, List.map_nil,
        List.mem_cons, List.not_mem_nil, or_false]
      constructor
      · rintro (hx | hx)
        · exact hx
        · rw [hx, getD_eq_getElem' A [] hi]
          exact List.mem_map.mpr ⟨A[i], List.getElem_mem hi, rfl⟩
      · intro hx
        exact Or.inl hx
    rw [hsp]

/-- C4 witness: the theorem applied to the 2-by-2 matrix `[[1,1],[0,1]]` with a
cyclic row permutation, with row 0 xor-ed into row 1, and with row 0 appended
as a duplicate. -/
theorem claim_C4_rank_row_ops_witness :
    (∀ row ∈ ([[1, 1], [0, 1]] : List (List GF2)), row.length = 2)
    ∧ ([[1, 1], [0, 1]] : List (List GF2)).Perm [[0, 1], [1, 1]]
    ∧ (0 : Nat) < ([[1, 1], [0, 1]] : List (List GF2)).length
    ∧ (1 : Nat) < ([[1, 1], [0, 1]] : List (List GF2)).length
    ∧ (0 : Nat) ≠ 1
    ∧ rank_gf2 [[0, 1], [1, 1]] = rank_gf2 [[1, 1], [0, 1]]
    ∧ rank_gf2 (([[1, 1], [0, 1]] : List (List GF2)).set 1
        (List.zipWith (· + ·) (([[1, 1], [0, 1]] : List (List GF2)).getD 1 [])
          (([[1, 1], [0, 1]] : List (List GF2)).getD 0 []))) =
        rank_gf2 [[1, 1], [0, 1]]
    ∧ rank_gf2 (([[1, 1], [0, 1]] : List (List GF2)) ++
        [([[1, 1], [0, 1]] : List (List GF2)).getD 0 []]) =
        rank_gf2 [[1, 1], [0, 1]] :=
  ⟨by decide, List.Perm.swap _ _ _, by decide, by decide, by decide,
    claim_C4_rank_row_ops.1 2 [[1, 1], [0, 1]] [[0, 1], [1, 1]] (by decide)
      (List.Perm.swap _ _ _),
    claim_C4_rank_row_ops.2.1 2 [[1, 1], [0, 1]] 0 1 (by decide) (by decide)
      (by decide) (by decide),
    claim_C4_rank_row_ops.2.2 2 [[1, 1], [0, 1]] 0 (by decide) (by decide)⟩

end Planqtn

namespace Planqtn

/-- The length of the even-position sublist. -/
theorem length_everyOther {α : Type} : ∀ l : List α,
    (everyOther l).length = (l.length + 1) / 2
  | [] => by simp [everyOther]
  | [a] => by simp [everyOther]
  | a :: b :: rest => by
      simp only [everyOther, List.length_cons]
      rw [length_everyOther rest]
      omega

/-- Splitting a row into even and odd positions preserves its length. -/
theorem to_symplectic_row_length {α : Type} (u : List α) :
    (everyOther u ++ everyOther (u.drop 1)).length = u.length := by
  simp only [List.length_append, length_everyOther, List.length_drop]
  omega

/-- With equal extracted column counts, the stacked mod-2 matrix is rectangular
with the first component's extracted column count. -/
theorem stackedJoinMatrix_rect {Leg : Type}
    (pte1 pte2 : StabilizerCodeTensorEnumerator Leg) (jl1 jl2 : List Leg)
    (heq : ((jl1.map pte1.get_col_indices).flatten).length =
      ((jl2.map pte2.get_col_indices).flatten).length) :
    ∀ row ∈ stackedJoinMatrix pte1 pte2 jl1 jl2,
      row.length = ((jl1.map pte1.get_col_indices).flatten).length := by
  intro row hrow
  simp only [stackedJoinMatrix, to_symplectic, selectCols] at hrow
  obtain ⟨row0, hrow0, rfl⟩ := List.mem_map.mp hrow
  rw [List.length_map]
  rcases List.mem_append.mp hrow0 with h | h
  · obtain ⟨u, hu, rfl⟩ := List.mem_map.mp h
    obtain ⟨hr, _, rfl⟩ := List.mem_map.mp hu
    rw [to_symplectic_row_length, List.length_map]
  · obtain ⟨u, hu, rfl⟩ := List.mem_map.mp h
    obtain ⟨hr, _, rfl⟩ := List.mem_map.mp hu
    rw [to_symplectic_row_length, List.length_map, heq]

/-- C2: with equal extracted column counts, the matching ratio is exactly
`2^(-r)` for `r` the GF(2) rank of the stacked, mod-2-reduced join-column
matrix; the result lies in `(0, 1]`; and it is exactly 1 when both extracted
block-layout matrices are all zero. -/
theorem claim_C2_matching_ratio {Leg : Type}
    (pte1 pte2 : StabilizerCodeTensorEnumerator Leg) (jl1 jl2 : List Leg)
    (heq : ((jl1.map pte1.get_col_indices).flatten).length =
      ((jl2.map pte2.get_col_indices).flatten).length) :
    count_matching_stabilizers_ratio_all_pairs pte1 pte2 jl1 jl2 =
      (2 : ℚ) ^ (-((toMat ((jl1.map pte1.get_col_indices).flatten).length
        (stackedJoinMatrix pte1 pte2 jl1 jl2)).rank : Int))
    ∧ 0 < count_matching_stabilizers_ratio_all_pairs pte1 pte2 jl1 jl2
    ∧ count_matching_stabilizers_ratio_all_pairs pte1 pte2 jl1 jl2 ≤ 1
    ∧ ((∀ row ∈ to_symplectic (selectCols pte1.h ((jl1.map pte1.get_col_indices).flatten)),
          ∀ x ∈ row, x = 0) →
       (∀ row ∈ to_symplectic (selectCols pte2.h ((jl2.map pte2.get_col_indices).flatten)),
          ∀ x ∈ row, x = 0) →
       count_matching_stabilizers_ratio_all_pairs pte1 pte2 jl1 jl2 = 1) := by
  refine ⟨?_, ?_, ?_, ?_⟩
  · simp only [count_matching_stabilizers_ratio_all_pairs]
    rw [rank_gf2_eq_matrix_rank _ _ (stackedJoinMatrix_rect pte1 pte2 jl1 jl2 heq)]
  · simp only [count_matching_stabilizers_ratio_all_pairs]
    exact zpow_pos (by norm_num) _
  · simp only [count_matching_stabilizers_ratio_all_pairs]
    apply zpow_le_one_of_nonpos₀ (by norm_num)
    omega
  · intro h1 h2
    simp only [count_matching_stabilizers_ratio_all_pairs]
    have hz : rank_gf2 (stackedJoinMatrix pte1 pte2 jl1 jl2) = 0 := by
      apply rank_gf2_zeros
      intro row hrow x hx
      simp only [stackedJoinMatrix] at hrow
      obtain ⟨row0, hrow0, rfl⟩ := List.mem_map.mp hrow
      obtain ⟨y, hy, rfl⟩ := List.mem_map.mp hx
      have hy0 : y = 0 := by
        rcases List.mem_append.mp hrow0 with h | h
        · exact h1 row0 h y hy
        · exact h2 row0 h y hy
      rw [hy0]
      rfl
    rw [hz]
    rfl

end Planqtn

namespace Planqtn

/-- C2 witness: the theorem applied to the two concrete components joined along
one leg each (two extracted columns per side; the stacked matrix has rank 2 and
the ratio is 1/4). -/
theorem claim_C2_matching_ratio_witness :
    ((([0] : List Nat).map examplePte1.get_col_indices).flatten).length =
      ((([0] : List Nat).map examplePte2.get_col_indices).flatten).length
    ∧ (count_matching_stabilizers_ratio_all_pairs examplePte1 examplePte2 [0] [0] =
        (2 : ℚ) ^ (-((toMat ((([0] : List Nat).map examplePte1.get_col_indices).flatten).length
          (stackedJoinMatrix examplePte1 examplePte2 [0] [0])).rank : Int))
      ∧ 0 < count_matching_stabilizers_ratio_all_pairs examplePte1 examplePte2 [0] [0]
      ∧ count_matching_stabilizers_ratio_all_pairs examplePte1 examplePte2 [0] [0] ≤ 1
      ∧ ((∀ row ∈ to_symplectic (selectCols examplePte1.h
            ((([0] : List Nat).map examplePte1.get_col_indices).flatten)),
            ∀ x ∈ row, x = 0) →
         (∀ row ∈ to_symplectic (selectCols examplePte2.h
            ((([0] : List Nat).map examplePte2.get_col_indices).flatten)),
            ∀ x ∈ row, x = 0) →
         count_matching_stabilizers_ratio_all_pairs examplePte1 examplePte2 [0] [0] = 1)) :=
  ⟨by decide, claim_C2_matching_ratio examplePte1 examplePte2 [0] [0] (by decide)⟩

end Planqtn
